import Mathlib

/-!
Verification development for the SyncSub SRT subtitle formatter
(`syncsub/subtitle_formatter.py`, `syncsub/models.py`, `syncsub/utils.py`).

The Python code is embedded shallowly:
* Python `float` times are modelled as exact rationals (`ℚ`);
* Python `str` text is modelled as `List Char`;
* Python `int` counters are `ℕ` (they never go negative in the source);
* the mutable loops of `SRTFormatter._split_segment`,
  `SRTFormatter._split_segment_by_chars` and the write loop of
  `SRTFormatter.format_subtitles` become explicit state records threaded
  through `List.foldl`;
* the output stream is modelled by an explicit outcome parameter and the
  writer returns `Except FormattingError` accordingly.
-/

-- Allow concrete rational arithmetic to be evaluated by `decide`:
-- the Batteries arithmetic on `Rat` is `@[irreducible]` for elaboration,
-- which blocks the evaluation of closed scenario computations.
attribute [local semireducible] Rat.add Rat.sub Rat.mul Rat.inv Rat.ofScientific

set_option maxRecDepth 100000

namespace SyncSub

/-- Whitespace test used by Python `str.split()` (for the character set
occurring in this code base: space, tab, carriage return, newline). -/
def isWsChar (c : Char) : Bool :=
  c = ' ' || c = '\t' || c = '\r' || c = '\n'

/-- Helper for `splitWs`: accumulates the current (reversed) token. -/
def splitWsAux (cur : List Char) : List Char → List (List Char)
  | [] => if cur = [] then [] else [cur.reverse]
  | c :: cs =>
      if isWsChar c then
        if cur = [] then splitWsAux [] cs else cur.reverse :: splitWsAux [] cs
      else
        splitWsAux (c :: cur) cs

/-- Python `text.split()`: split on runs of whitespace, dropping empty tokens. -/
def splitWs (s : List Char) : List (List Char) :=
  splitWsAux [] s

/-- Python `sep.join(parts)` for a single-character separator. -/
def joinSep (sep : Char) : List (List Char) → List Char
  | [] => []
  | [l] => l
  | l :: ls => l ++ sep :: joinSep sep ls

/-- Python `text.split(sep)` for a single-character separator: keeps empty
pieces, and `"".split(sep) = [""]`. -/
def splitOnChar (sep : Char) : List Char → List (List Char)
  | [] => [[]]
  | c :: cs =>
      if c = sep then
        [] :: splitOnChar sep cs
      else
        match splitOnChar sep cs with
        | [] => [[c]]
        | t :: ts => (c :: t) :: ts

/-- `models.Segment`: a single timed chunk of text. -/
structure Segment where
  start_time : ℚ
  end_time : ℚ
  text : List Char
deriving Repr, DecidableEq

/-- `models.TranscriptionResult`: language tag plus ordered segments. -/
structure TranscriptionResult where
  language : Option (List Char)
  segments : List Segment
deriving Repr, DecidableEq

/-- One SRT cue block as written by `SRTFormatter.format_subtitles`:
its (possibly padded) times and the final, wrapped-and-truncated lines.
Blocks are numbered positionally (1-based) at write time. -/
structure Block where
  start_time : ℚ
  end_time : ℚ
  lines : List (List Char)
deriving Repr, DecidableEq

/-- `exceptions.FormattingError`. -/
structure FormattingError where
  msg : List Char
deriving Repr, DecidableEq

/-- `time_per_char = duration / len(text) if len(text) > 0 else 0`
(line 134 of `subtitle_formatter.py`). -/
def time_per_char (segment : Segment) : ℚ :=
  if 0 < segment.text.length then
    (segment.end_time - segment.start_time) / (segment.text.length : ℚ)
  else 0

/-- Mutable state of the word loop in `SRTFormatter._split_segment_by_chars`.
The source also assigns `current_char_count`, `start_word_idx`,
`num_desired_splits` and (at line 151) a `block_chars`, but never reads them;
they are omitted. -/
structure CharState where
  split_segments : List Segment
  current_line : List Char
  current_start_time : ℚ
  processed_chars : ℕ
  lines_in_block : List (List Char)
deriving Repr, DecidableEq

/-- The block-flush computation shared by the two flush sites of
`_split_segment_by_chars` (lines 150–163 and 173–185): compute the
end time from `processed` characters, clamp to the segment end, pad a
non-positive window to `+0.1`, append the block, and reset the
per-block counters. -/
def flushBlock (seg_end tpc : ℚ) (block_text : List Char) (processed : ℕ)
    (st : CharState) : CharState :=
  let sub_end0 := st.current_start_time + (processed : ℚ) * tpc
  let sub_end1 := min sub_end0 seg_end
  let sub_end :=
    if sub_end1 ≤ st.current_start_time then st.current_start_time + 1/10
    else sub_end1
  { split_segments :=
      st.split_segments ++ [⟨st.current_start_time, sub_end, block_text⟩],
    current_line := st.current_line,
    current_start_time := sub_end,
    processed_chars := 0,
    lines_in_block := [] }

/-- One iteration of the `for i, word in enumerate(words)` loop of
`_split_segment_by_chars` (lines 141–201). -/
def charStep (seg_end tpc : ℚ) (max_chars max_lines words_count : ℕ)
    (st : CharState) (iw : ℕ × List Char) : CharState :=
  let i := iw.1
  let word := iw.2
  let potential_line :=
    if st.current_line = [] then word else st.current_line ++ ' ' :: word
  if max_chars < potential_line.length then
    -- the word does not fit into the combined block budget
    let st1 :=
      if st.current_line = [] then
        -- word itself is longer than max_chars, keep it together (line 165)
        { st with current_line := word }
      else
        -- finish the current segment block (lines 148–164)
        { flushBlock seg_end tpc
            (joinSep '\n' (st.lines_in_block ++ [st.current_line]))
            st.processed_chars st
          with current_line := word }
    if max_chars / max_lines < st1.current_line.length then
      -- long line: add it, flush block if full or last word (lines 169–187)
      let lines2 := st1.lines_in_block ++ [st1.current_line]
      if max_lines ≤ lines2.length ∨ i = words_count - 1 then
        let block_text := joinSep '\n' lines2
        let block_chars := block_text.length - (lines2.length - 1)
        { flushBlock seg_end tpc block_text
            (st1.processed_chars + block_chars) st1
          with current_line := [] }
      else
        -- line added; `current_line` is (faithfully) left untouched
        { st1 with lines_in_block := lines2 }
    else
      -- word starts a new line within the current block (lines 189–192)
      { st1 with
          lines_in_block := st1.lines_in_block ++ [st1.current_line],
          processed_chars := st1.processed_chars + st1.current_line.length + 1,
          current_line := [] }
  else
    -- word fits (lines 194–201)
    let st2 := { st with current_line := potential_line }
    if max_chars / max_lines < st2.current_line.length ∧
        st2.lines_in_block.length < max_lines - 1 then
      { st2 with
          lines_in_block := st2.lines_in_block ++ [st2.current_line],
          processed_chars := st2.processed_chars + st2.current_line.length + 1,
          current_line := [] }
    else st2

/-- State of the word loop of `_split_segment_by_chars` after all words
have been processed. -/
def charFinalState (segment : Segment) (max_chars max_lines : ℕ) : CharState :=
  let words := splitWs segment.text
  let tpc := time_per_char segment
  words.enum.foldl (charStep segment.end_time tpc max_chars max_lines words.length)
    ⟨[], [], segment.start_time, 0, []⟩

/-- The pending lines of the final partial block of
`_split_segment_by_chars` (lines 203–205). -/
def charFinalLines (st : CharState) : List (List Char) :=
  if st.current_line = [] then st.lines_in_block
  else st.lines_in_block ++ [st.current_line]

/-- The list `split_segments` of `_split_segment_by_chars` after the word
loop and the trailing flush (lines 203–210), before the final filter. -/
def charBlocksRaw (segment : Segment) (max_chars max_lines : ℕ) : List Segment :=
  let st := charFinalState segment max_chars max_lines
  let lines_fin := charFinalLines st
  if lines_fin = [] then st.split_segments
  else
    st.split_segments ++
      [⟨st.current_start_time, segment.end_time, joinSep '\n' lines_fin⟩]

/-- `SRTFormatter._split_segment_by_chars`. -/
def split_segment_by_chars (segment : Segment) (max_chars max_lines : ℕ) :
    List Segment :=
  if segment.text.length ≤ max_chars then [segment]
  else if splitWs segment.text = [] then [segment]
  else
    (charBlocksRaw segment max_chars max_lines).filter
      (fun s => !s.text.isEmpty && decide (s.start_time < s.end_time))

/-- The same computation without the final filter of line 213: every block
the splitter builds, including the ones the filter would drop. -/
def split_by_chars_prefilter (segment : Segment) (max_chars max_lines : ℕ) :
    List Segment :=
  if segment.text.length ≤ max_chars then [segment]
  else if splitWs segment.text = [] then [segment]
  else charBlocksRaw segment max_chars max_lines

/-- Mutable state of the duration-split loop in `_split_segment`
(lines 77–96). -/
structure DurState where
  split_segments : List Segment
  current_time : ℚ
  start_word_idx : ℕ
deriving Repr, DecidableEq

/-- One iteration of `for i in range(num_splits_duration)` (lines 84–96). -/
def durStep (segment : Segment) (split_duration : ℚ) (words : List (List Char))
    (n : ℤ) (words_per_split : ℕ) (st : DurState) (i : ℕ) : DurState :=
  let end_word_idx :=
    if (i : ℤ) < n - 1 then
      min (st.start_word_idx + words_per_split) words.length
    else words.length
  let sub_text :=
    joinSep ' ' ((words.drop st.start_word_idx).take (end_word_idx - st.start_word_idx))
  if sub_text = [] then st
  else
    let sub_start := st.current_time
    let sub_end0 := min (st.current_time + split_duration) segment.end_time
    let sub_end := if sub_end0 ≤ sub_start then sub_start + 1/10 else sub_end0
    ⟨st.split_segments ++ [⟨sub_start, sub_end, sub_text⟩], sub_end, end_word_idx⟩

/-- State of the duration-split loop of `_split_segment` after all
iterations: `n = int(duration // max_duration) + 1` chunks of
`words_per_split = len(words) // n` words each, the last chunk taking the
rest, with empty chunks skipped. -/
def durFinalState (segment : Segment) (max_duration : ℚ) : DurState :=
  let duration := segment.end_time - segment.start_time
  let n : ℤ := (duration / max_duration).floor + 1
  let split_duration := duration / (n : ℚ)
  let words := splitWs segment.text
  let words_per_split := if 0 < n then words.length / n.toNat else words.length
  (List.range n.toNat).foldl
    (durStep segment split_duration words n words_per_split)
    ⟨[], segment.start_time, 0⟩

/-- The `split_segments` list built by the duration branch of
`_split_segment` (lines 74–96). -/
def duration_chunks (segment : Segment) (max_duration : ℚ) : List Segment :=
  (durFinalState segment max_duration).split_segments

/-- `SRTFormatter._split_segment` (lines 46–115): split by duration when
`duration > 1.5 * max_duration` and the duration split produced anything,
then char-split every piece; otherwise char-split iff the text exceeds
`max_chars`; otherwise pass the segment through unchanged. -/
def split_segment (segment : Segment) (max_chars max_lines : ℕ)
    (max_duration : ℚ) : List Segment :=
  let duration := segment.end_time - segment.start_time
  let chunks := duration_chunks segment max_duration
  if max_duration * (3/2) < duration ∧ chunks ≠ [] then
    chunks.flatMap (fun c => split_segment_by_chars c max_chars max_lines)
  else if max_chars < segment.text.length then
    split_segment_by_chars segment max_chars max_lines
  else [segment]

/-- The list of pieces `_split_segment` feeds to `_split_segment_by_chars`:
the duration chunks when the duration branch fires and is non-empty,
otherwise the segment itself. -/
def duration_pieces (segment : Segment) (max_duration : ℚ) : List Segment :=
  let duration := segment.end_time - segment.start_time
  let chunks := duration_chunks segment max_duration
  if max_duration * (3/2) < duration ∧ chunks ≠ [] then chunks else [segment]

/-- One step of the greedy word wrap of the write loop
(lines 268–278 of `format_subtitles`). State: (finished lines, current
wrapped line, its tracked length). -/
def wrapStep (max_chars : ℕ) (st : List (List Char) × List Char × ℕ)
    (word : List Char) : List (List Char) × List Char × ℕ :=
  let acc := st.1
  let wrapped := st.2.1
  let line_len := st.2.2
  if line_len = 0 then (acc, wrapped ++ word, line_len + word.length)
  else if line_len + word.length + 1 ≤ max_chars then
    (acc, wrapped ++ ' ' :: word, line_len + word.length + 1)
  else (acc ++ [wrapped], word, word.length)

/-- Basic word wrap applied to one overlong line (lines 265–279). -/
def wrap_line (line : List Char) (max_chars : ℕ) : List (List Char) :=
  let st := (splitWs line).foldl (wrapStep max_chars) ([], [], 0)
  st.1 ++ [st.2.1]

/-- The `final_lines` list of the write loop (lines 261–281): split the text
on newlines, re-wrap any line longer than `max_chars_per_segment`. -/
def final_lines (text : List Char) (max_chars : ℕ) : List (List Char) :=
  (splitOnChar '\n' text).flatMap
    (fun line => if max_chars < line.length then wrap_line line max_chars else [line])

/-- The cue block written for one formatted segment (lines 260–299):
wrap and truncate the text to `max_lines` lines, and pad the end time to
`start + 0.1` when it is not strictly after the start time. -/
def write_block (segment : Segment) (max_chars max_lines : ℕ) : Block :=
  let fl := (final_lines segment.text max_chars).take max_lines
  let e :=
    if segment.end_time ≤ segment.start_time then segment.start_time + 1/10
    else segment.end_time
  ⟨segment.start_time, e, fl⟩

/-- All cue blocks `SRTFormatter.format_subtitles` writes for a
transcription result, in emission order (block `i` is written with
1-based index `i+1`). `max_chars_combined = max_chars_per_segment *
max_lines_per_block` is the char budget handed to the splitter
(line 244). -/
def written_blocks (r : TranscriptionResult)
    (max_chars_per_segment max_lines_per_block : ℕ)
    (max_duration_seconds : ℚ) : List Block :=
  (r.segments.flatMap
      (fun s =>
        split_segment s (max_chars_per_segment * max_lines_per_block)
          max_lines_per_block max_duration_seconds)).map
    (fun s => write_block s max_chars_per_segment max_lines_per_block)

/-- Outcome of opening/writing the output stream. -/
inductive StreamOutcome
  | ok
  | writeFails
deriving Repr, DecidableEq

/-- `SRTFormatter.format_subtitles` as a fallible computation: the pure
splitting and formatting work is total; the only failure source is the
output stream, whose open/write failure is surfaced as `FormattingError`
(lines 304–309). -/
def format_subtitles_run (r : TranscriptionResult)
    (max_chars_per_segment max_lines_per_block : ℕ)
    (max_duration_seconds : ℚ) :
    StreamOutcome → Except FormattingError (List Block)
  | .ok =>
      .ok (written_blocks r max_chars_per_segment max_lines_per_block
        max_duration_seconds)
  | .writeFails => .error ⟨['w', 'r', 'i', 't', 'e']⟩

/-- `True` exactly on the paths where `_split_segment_by_chars` executes
`return [segment]`, handing the caller the input Segment object itself
(lines 120–121 and 124–125). -/
def char_split_aliased (segment : Segment) (max_chars : ℕ) : Bool :=
  decide (segment.text.length ≤ max_chars) || (splitWs segment.text).isEmpty

/-- `True` exactly when `_split_segment` returns a list containing the input
Segment object itself (its `return [segment]` at line 115, or the aliasing
returns of `_split_segment_by_chars`); the duration branch only builds new
Segment objects. -/
def split_aliased (segment : Segment) (max_chars max_lines : ℕ)
    (max_duration : ℚ) : Bool :=
  let duration := segment.end_time - segment.start_time
  let chunks := duration_chunks segment max_duration
  if max_duration * (3/2) < duration ∧ chunks ≠ [] then false
  else if max_chars < segment.text.length then
    char_split_aliased segment max_chars
  else true

/-- The value of an input Segment object after `format_subtitles` returns:
when the pipeline handed the write loop the input object itself and the
write loop executed its padding assignment `segment.end_time =
segment.start_time + 0.1` (lines 291–293), the input object is mutated;
otherwise it is untouched. -/
def final_input_segment (segment : Segment)
    (max_chars_per_segment max_lines_per_block : ℕ)
    (max_duration_seconds : ℚ) : Segment :=
  if split_aliased segment (max_chars_per_segment * max_lines_per_block)
        max_lines_per_block max_duration_seconds
      && decide (segment.end_time ≤ segment.start_time) then
    { segment with end_time := segment.start_time + 1/10 }
  else segment

/-- The input segment list as observed after `format_subtitles` returns. -/
def format_final_segments (r : TranscriptionResult)
    (max_chars_per_segment max_lines_per_block : ℕ)
    (max_duration_seconds : ℚ) : List Segment :=
  r.segments.map
    (fun s =>
      final_input_segment s max_chars_per_segment max_lines_per_block
        max_duration_seconds)

/-! ### Specification notions used to state the claims -/

/-- The blocks `bs` form a contiguous chain of time windows that starts at
`a` and ends at `c`: each block starts where its predecessor ended and has
strictly positive duration. Both split loops advance their running
`current_..._time` in exactly this fashion. -/
def chainFrom (a : ℚ) : List Segment → ℚ → Prop
  | [], c => c = a
  | b :: bs, c => b.start_time = a ∧ b.start_time < b.end_time ∧ chainFrom b.end_time bs c

/-- All words held by the intermediate state of the char-split loop, in
order: words already flushed into blocks, then the completed lines of the
current block, then the line being assembled. -/
def charCollect (st : CharState) : List (List Char) :=
  st.split_segments.flatMap (fun b => splitWs b.text) ++
    st.lines_in_block.flatMap splitWs ++ splitWs st.current_line

/-- A word list suitable for the short-word conservation lemmas: every
token is non-empty, whitespace-free, and no longer than the per-line
threshold `max_chars / max_lines` of the char splitter. -/
def goodWords (per_line : ℕ) (ws : List (List Char)) : Prop :=
  ∀ w ∈ ws, w ≠ [] ∧ (∀ c ∈ w, isWsChar c = false) ∧ w.length ≤ per_line

/-- Duration of a written block. -/
def blockDur (b : Block) : ℚ := b.end_time - b.start_time

/-- Invariant of the char-split loop state for a split that started at
time `a` and clamps against segment end `send`: the flushed blocks chain
contiguously from `a` to the running start time, block texts and pending
lines are non-empty, and each flushed block can have pushed the running
time at most `0.1` past `send`. -/
def CharInv (a send : ℚ) (st : CharState) : Prop :=
  chainFrom a st.split_segments st.current_start_time ∧
  (∀ b ∈ st.split_segments, b.text ≠ []) ∧
  (∀ l ∈ st.lines_in_block, l ≠ []) ∧
  (a ≤ send →
    st.current_start_time ≤ send + (st.split_segments.length : ℚ) * (1/10))

/-- Invariant of the duration-split loop state: the emitted chunks chain
contiguously from the segment start, their words are exactly the first
`start_word_idx` words of the segment, and the index never overruns. -/
def DurInv (segment : Segment) (words : List (List Char)) (st : DurState) : Prop :=
  chainFrom segment.start_time st.split_segments st.current_time ∧
  st.split_segments.flatMap (fun b => splitWs b.text) = words.take st.start_word_idx ∧
  st.start_word_idx ≤ words.length

/-! ### Concrete scenario inputs -/

/-- The token `"word"`. -/
def wordChars : List Char := ['w', 'o', 'r', 'd']

/-- The text `"hi"`. -/
def hiChars : List Char := ['h', 'i']

/-- The text `"hello"`. -/
def helloChars : List Char := ['h', 'e', 'l', 'l', 'o']

/-- The text `"Hello world"`. -/
def helloWorldChars : List Char :=
  ['H', 'e', 'l', 'l', 'o', ' ', 'w', 'o', 'r', 'l', 'd']

/-- Scenario B text: 100 repetitions of `"word"` joined by single spaces. -/
def scenarioBText : List Char := joinSep ' ' (List.replicate 100 wordChars)

/-- A zero-duration segment with 40 usable words. -/
def fortyWordText : List Char := joinSep ' ' (List.replicate 40 wordChars)

/-- Two segments in temporal order whose cues are emitted out of order:
a zero-duration 100-word segment whose padded cues overshoot into the
range of the following short segment. -/
def outOfOrderInput : TranscriptionResult :=
  ⟨none, [⟨0, 0, scenarioBText⟩, ⟨1/20, 1, hiChars⟩]⟩

/-! ### Theory of the whitespace tokenizer -/

theorem splitWsAux_tokens (s : List Char) :
    ∀ cur, (∀ c ∈ cur, isWsChar c = false) →
      ∀ w ∈ splitWsAux cur s, w ≠ [] ∧ ∀ c ∈ w, isWsChar c = false := by
  induction s with
  | nil =>
      intro cur hcur w hw
      by_cases h : cur = []
      · simp [splitWsAux, h] at hw
      · simp only [splitWsAux, if_neg h, List.mem_singleton] at hw
        subst hw
        refine ⟨by simpa using h, ?_⟩
        intro c hc
        exact hcur c (List.mem_reverse.mp hc)
  | cons c cs ih =>
      intro cur hcur w hw
      simp only [splitWsAux] at hw
      by_cases hws : isWsChar c
      · rw [if_pos hws] at hw
        by_cases h : cur = []
        · rw [if_pos h] at hw
          exact ih [] (by simp) w hw
        · rw [if_neg h] at hw
          rcases List.mem_cons.mp hw with hw | hw
          · subst hw
            refine ⟨by simpa using h, ?_⟩
            intro d hd
            exact hcur d (List.mem_reverse.mp hd)
          · exact ih [] (by simp) w hw
      · rw [if_neg hws] at hw
        refine ih (c :: cur) ?_ w hw
        intro d hd
        rcases List.mem_cons.mp hd with hd | hd
        · subst hd; simpa using hws
        · exact hcur d hd

theorem splitWs_tokens (s : List Char) :
    ∀ w ∈ splitWs s, w ≠ [] ∧ ∀ c ∈ w, isWsChar c = false :=
  splitWsAux_tokens s [] (by simp)

theorem splitWsAux_append_ws {c : Char} (hc : isWsChar c = true) (b : List Char) :
    ∀ (a : List Char) (cur : List Char),
      splitWsAux cur (a ++ c :: b) = splitWsAux cur a ++ splitWsAux [] b := by
  intro a
  induction a with
  | nil =>
      intro cur
      by_cases h : cur = [] <;>
        simp [splitWsAux, hc, h]
  | cons d ds ih =>
      intro cur
      by_cases hd : isWsChar d
      · by_cases h : cur = [] <;>
          simp [splitWsAux, hd, h, ih]
      · simp [splitWsAux, hd, ih]

theorem splitWs_append_ws {c : Char} (hc : isWsChar c = true) (a b : List Char) :
    splitWs (a ++ c :: b) = splitWs a ++ splitWs b :=
  splitWsAux_append_ws hc b a []

theorem splitWsAux_clean (w : List Char) (hw : ∀ c ∈ w, isWsChar c = false) :
    ∀ cur, splitWsAux cur w =
      if cur.reverse ++ w = [] then [] else [cur.reverse ++ w] := by
  induction w with
  | nil =>
      intro cur
      by_cases h : cur = [] <;>
        simp [splitWsAux, h]
  | cons c cs ih =>
      intro cur
      have hc : isWsChar c = false := hw c (by simp)
      have hcs : ∀ d ∈ cs, isWsChar d = false := fun d hd => hw d (by simp [hd])
      simp only [splitWsAux, hc, Bool.false_eq_true, if_false]
      rw [ih hcs (c :: cur)]
      simp

theorem splitWs_single (w : List Char) (hne : w ≠ [])
    (hw : ∀ c ∈ w, isWsChar c = false) : splitWs w = [w] := by
  unfold splitWs
  rw [splitWsAux_clean w hw []]
  simp [hne]

theorem splitWs_join_space (ws : List (List Char))
    (h : ∀ w ∈ ws, w ≠ [] ∧ ∀ c ∈ w, isWsChar c = false) :
    splitWs (joinSep ' ' ws) = ws := by
  induction ws with
  | nil => rfl
  | cons w ws ih =>
      cases ws with
      | nil =>
          simp only [joinSep]
          exact splitWs_single w (h w (by simp)).1 (h w (by simp)).2
      | cons w' ws' =>
          have hjoin : joinSep ' ' (w :: w' :: ws') = w ++ ' ' :: joinSep ' ' (w' :: ws') := rfl
          rw [hjoin, splitWs_append_ws (by decide) w (joinSep ' ' (w' :: ws')),
            splitWs_single w (h w (by simp)).1 (h w (by simp)).2,
            ih (fun v hv => h v (by simp [List.mem_cons] at hv ⊢; tauto))]
          rfl

theorem splitWs_join_nl (ls : List (List Char)) :
    splitWs (joinSep '\n' ls) = ls.flatMap splitWs := by
  induction ls with
  | nil => rfl
  | cons l ls ih =>
      cases ls with
      | nil => simp [joinSep]
      | cons l' ls' =>
          have hjoin : joinSep '\n' (l :: l' :: ls') = l ++ '\n' :: joinSep '\n' (l' :: ls') := rfl
          rw [hjoin, splitWs_append_ws (by decide) l (joinSep '\n' (l' :: ls')), ih]
          simp

theorem joinSep_ne_nil (sep : Char) (ls : List (List Char)) (hne : ls ≠ [])
    (h : ∀ l ∈ ls, l ≠ []) : joinSep sep ls ≠ [] := by
  cases ls with
  | nil => exact absurd rfl hne
  | cons l ls =>
      cases ls with
      | nil => exact h l (by simp)
      | cons l' ls' =>
          have : joinSep sep (l :: l' :: ls') = l ++ sep :: joinSep sep (l' :: ls') := rfl
          rw [this]
          simp

theorem splitOnChar_no_sep (sep : Char) (l : List Char)
    (h : ∀ c ∈ l, c ≠ sep) : splitOnChar sep l = [l] := by
  induction l with
  | nil => rfl
  | cons c cs ih =>
      have hc : c ≠ sep := h c (by simp)
      have hcs : ∀ d ∈ cs, d ≠ sep := fun d hd => h d (by simp [hd])
      simp only [splitOnChar, if_neg hc, ih hcs]

/-! ### Theory of contiguous block chains -/

theorem chainFrom_append {a c e : ℚ} {l : List Segment} {t : List Char}
    (h : chainFrom a l c) (hce : c < e) :
    chainFrom a (l ++ [⟨c, e, t⟩]) e := by
  induction l generalizing a with
  | nil =>
      cases h
      exact ⟨rfl, hce, rfl⟩
  | cons b bs ih =>
      obtain ⟨hs, hlt, hrest⟩ := h
      exact ⟨hs, hlt, ih hrest⟩

theorem chainFrom_le {a c : ℚ} {l : List Segment} (h : chainFrom a l c) :
    a ≤ c := by
  induction l generalizing a with
  | nil => exact le_of_eq h.symm
  | cons b bs ih =>
      obtain ⟨hs, hlt, hrest⟩ := h
      have := ih hrest
      linarith [hs ▸ hlt]

theorem chainFrom_mem {a c : ℚ} {l : List Segment} (h : chainFrom a l c) :
    ∀ b ∈ l, a ≤ b.start_time ∧ b.start_time < b.end_time ∧ b.end_time ≤ c := by
  induction l generalizing a with
  | nil => intro b hb; cases hb
  | cons x xs ih =>
      obtain ⟨hs, hlt, hrest⟩ := h
      intro b hb
      rcases List.mem_cons.mp hb with hb | hb
      · subst hb
        exact ⟨le_of_eq hs.symm, hlt, chainFrom_le hrest⟩
      · obtain ⟨h1, h2, h3⟩ := ih hrest b hb
        exact ⟨by linarith [hs ▸ hlt], h2, h3⟩

theorem chainFrom_pairwise_sep {a c : ℚ} {l : List Segment}
    (h : chainFrom a l c) :
    l.Pairwise (fun x y => x.end_time ≤ y.start_time) := by
  induction l generalizing a with
  | nil => exact List.Pairwise.nil
  | cons x xs ih =>
      obtain ⟨hs, hlt, hrest⟩ := h
      exact List.Pairwise.cons (fun y hy => (chainFrom_mem hrest y hy).1) (ih hrest)

theorem chainFrom_pairwise_lt {a c : ℚ} {l : List Segment}
    (h : chainFrom a l c) :
    l.Pairwise (fun x y => x.start_time < y.start_time) := by
  induction l generalizing a with
  | nil => exact List.Pairwise.nil
  | cons x xs ih =>
      obtain ⟨hs, hlt, hrest⟩ := h
      refine List.Pairwise.cons (fun y hy => ?_) (ih hrest)
      have := (chainFrom_mem hrest y hy).1
      linarith

theorem chainFrom_sum {a c : ℚ} {l : List Segment} (h : chainFrom a l c) :
    ((l.map fun b => b.end_time - b.start_time).sum) = c - a := by
  induction l generalizing a with
  | nil => simp [show c = a from h]
  | cons b bs ih =>
      obtain ⟨hs, hlt, hrest⟩ := h
      simp only [List.map_cons, List.sum_cons, ih hrest]
      rw [hs]
      ring

/-! ### The char-split loop preserves its chain invariant -/

theorem flushBlock_lt {send tpc : ℚ} {txt : List Char} {p : ℕ} {st : CharState} :
    st.current_start_time < (flushBlock send tpc txt p st).current_start_time := by
  unfold flushBlock
  dsimp only
  split
  · linarith
  · rename_i hc
    push_neg at hc
    exact hc

theorem flushBlock_inv {a send tpc : ℚ} {txt : List Char} {p : ℕ} {st : CharState}
    (h : CharInv a send st) (htxt : txt ≠ []) :
    CharInv a send (flushBlock send tpc txt p st) := by
  obtain ⟨hchain, htexts, hlines, hbound⟩ := h
  have hlt : st.current_start_time < (flushBlock send tpc txt p st).current_start_time :=
    flushBlock_lt
  unfold flushBlock at hlt ⊢
  dsimp only at hlt ⊢
  refine ⟨chainFrom_append hchain hlt, ?_, by simp, ?_⟩
  · intro b hb
    rcases List.mem_append.mp hb with hb | hb
    · exact htexts b hb
    · simp only [List.mem_singleton] at hb
      subst hb
      exact htxt
  · intro hase
    have hb := hbound hase
    simp only [List.length_append, List.length_singleton]
    push_cast
    split
    · linarith
    · rename_i hc
      have : min (st.current_start_time + (p : ℚ) * tpc) send ≤ send := min_le_right _ _
      linarith

theorem CharInv_set {a send : ℚ} {st : CharState} (h : CharInv a send st)
    (cl : List Char) (pc : ℕ) :
    CharInv a send ⟨st.split_segments, cl, st.current_start_time, pc, st.lines_in_block⟩ := h

theorem CharInv_push {a send : ℚ} {st : CharState} {l : List Char}
    (h : CharInv a send st) (hl : l ≠ []) (cl : List Char) (pc : ℕ) :
    CharInv a send
      ⟨st.split_segments, cl, st.current_start_time, pc, st.lines_in_block ++ [l]⟩ := by
  obtain ⟨hchain, htexts, hlines, hbound⟩ := h
  refine ⟨hchain, htexts, ?_, hbound⟩
  intro x hx
  rcases List.mem_append.mp hx with hx | hx
  · exact hlines x hx
  · simp only [List.mem_singleton] at hx
    subst hx
    exact hl

theorem charStep_inv {a send tpc : ℚ} {C L N : ℕ} {st : CharState}
    {i : ℕ} {w : List Char} (h : CharInv a send st) (hw : w ≠ []) :
    CharInv a send (charStep send tpc C L N st (i, w)) := by
  have hlines0 : ∀ l ∈ st.lines_in_block, l ≠ [] := h.2.2.1
  unfold charStep
  dsimp only
  split_ifs with h1 h2 h3 h4 h5 h6 h7 h8 h9
  · -- empty line, overlong word, long-line flush
    refine CharInv_set (flushBlock_inv (CharInv_set h w st.processed_chars) ?_) _ _
    refine joinSep_ne_nil _ _ (by simp) ?_
    intro l hl
    dsimp at hl
    rcases List.mem_append.mp hl with hl | hl
    · exact hlines0 l hl
    · simp only [List.mem_singleton] at hl
      subst hl
      exact hw
  · -- empty line, overlong word, line recorded, block kept open
    exact CharInv_push h hw _ _
  · -- empty line, overlong word below the per-line threshold
    exact CharInv_push h hw _ _
  · -- word fits and completes a line
    exact CharInv_push h hw _ _
  · -- word fits into the open line
    exact CharInv_set h _ _
  · -- non-empty line flushed, then long-word flush
    have htxt1 : joinSep '\n' (st.lines_in_block ++ [st.current_line]) ≠ [] := by
      refine joinSep_ne_nil _ _ (by simp) ?_
      intro l hl
      rcases List.mem_append.mp hl with hl | hl
      · exact hlines0 l hl
      · simp only [List.mem_singleton] at hl
        subst hl
        exact h1
    refine CharInv_set
      (flushBlock_inv (CharInv_set (flushBlock_inv h htxt1) w _) ?_) _ _
    refine joinSep_ne_nil _ _ (by simp) ?_
    intro l hl
    dsimp [flushBlock] at hl
    simp only [List.nil_append, List.mem_singleton] at hl
    subst hl
    exact hw
  · -- non-empty line flushed, long word recorded, block kept open
    have htxt1 : joinSep '\n' (st.lines_in_block ++ [st.current_line]) ≠ [] := by
      refine joinSep_ne_nil _ _ (by simp) ?_
      intro l hl
      rcases List.mem_append.mp hl with hl | hl
      · exact hlines0 l hl
      · simp only [List.mem_singleton] at hl
        subst hl
        exact h1
    exact CharInv_push (flushBlock_inv h htxt1) hw _ _
  · -- non-empty line flushed, word below the per-line threshold
    have htxt1 : joinSep '\n' (st.lines_in_block ++ [st.current_line]) ≠ [] := by
      refine joinSep_ne_nil _ _ (by simp) ?_
      intro l hl
      rcases List.mem_append.mp hl with hl | hl
      · exact hlines0 l hl
      · simp only [List.mem_singleton] at hl
        subst hl
        exact h1
    exact CharInv_push (flushBlock_inv h htxt1) hw _ _
  · -- word fits and completes a line
    exact CharInv_push h (by simp) _ _
  · -- word fits into the open line
    exact CharInv_set h _ _

theorem charFold_inv {a send tpc : ℚ} {C L N : ℕ}
    (ps : List (ℕ × List Char)) (st : CharState)
    (h : CharInv a send st) (hps : ∀ p ∈ ps, p.2 ≠ []) :
    CharInv a send (ps.foldl (charStep send tpc C L N) st) := by
  induction ps generalizing st with
  | nil => exact h
  | cons p ps ih =>
      simp only [List.foldl_cons]
      exact ih _ (charStep_inv h (hps p (by simp)))
        (fun q hq => hps q (by simp [hq]))

theorem charFinalState_inv (segment : Segment) (max_chars max_lines : ℕ) :
    CharInv segment.start_time segment.end_time
      (charFinalState segment max_chars max_lines) := by
  unfold charFinalState
  dsimp only
  refine charFold_inv _ _ ⟨rfl, by simp, by simp, by intro h; simpa using h⟩ ?_
  intro p hp
  have : p.2 ∈ (splitWs segment.text).enum.map Prod.snd :=
    List.mem_map_of_mem Prod.snd hp
  rw [List.enum, List.enumFrom_map_snd] at this
  exact (splitWs_tokens _ p.2 this).1


/-! ### Word conservation of the char-split loop (short words) -/

theorem splitWs_nil : splitWs ([] : List Char) = [] := rfl

theorem charStep_collect {send tpc : ℚ} {C L N : ℕ} {st : CharState}
    {i : ℕ} {w : List Char} (hw : w ≠ [])
    (hclean : ∀ c ∈ w, isWsChar c = false)
    (hshort : w.length ≤ C / L) :
    charCollect (charStep send tpc C L N st (i, w)) = charCollect st ++ [w] := by
  have hCL : C / L ≤ C := Nat.div_le_self C L
  have hsw : splitWs w = [w] := splitWs_single w hw hclean
  have hspace : isWsChar ' ' = true := by decide
  unfold charStep
  dsimp only
  split_ifs with h1 h2 h3 h4 h5 h6 h7 h8 h9
  · exact absurd h2 (by omega)
  · exact absurd h2 (by omega)
  · exact absurd h2 (by omega)
  · -- word completes a line (empty current line)
    unfold charCollect
    dsimp only
    simp [h1, hsw, splitWs_nil, List.flatMap_append]
  · -- word starts the current line
    unfold charCollect
    dsimp only
    simp [h1, hsw, splitWs_nil]
  · -- dead: the freshly started line is the short word itself
    dsimp only at h7
    exact absurd h7 (by omega)
  · dsimp only at h7
    exact absurd h7 (by omega)
  · -- flush current block, word becomes a completed line of the next block
    unfold charCollect
    dsimp only [flushBlock]
    simp [splitWs_join_nl, hsw, splitWs_nil, List.flatMap_append]
  · -- word appended to the current line, line completed
    unfold charCollect
    dsimp only
    simp only [List.flatMap_append, List.flatMap_cons, List.flatMap_nil]
    rw [splitWs_append_ws hspace st.current_line w, hsw]
    simp [splitWs_nil]
  · -- word appended to the current line
    unfold charCollect
    dsimp only
    rw [splitWs_append_ws hspace st.current_line w, hsw]
    simp

theorem charStep_live {send tpc : ℚ} {C L N : ℕ} {st : CharState}
    {i : ℕ} {w : List Char} (hw : w ≠ []) (hshort : w.length ≤ C / L) :
    (charStep send tpc C L N st (i, w)).lines_in_block ≠ [] ∨
      (charStep send tpc C L N st (i, w)).current_line ≠ [] := by
  have hCL : C / L ≤ C := Nat.div_le_self C L
  unfold charStep
  dsimp only
  split_ifs with h1 h2 h3 h4 h5 h6 h7 h8 h9
  · exact absurd h2 (by omega)
  · exact absurd h2 (by omega)
  · exact absurd h2 (by omega)
  · left; simp
  · right; simpa using hw
  · dsimp only at h7
    exact absurd h7 (by omega)
  · dsimp only at h7
    exact absurd h7 (by omega)
  · left; simp
  · left; simp
  · right
    dsimp only
    simp [h1]

theorem charFold_collect {send tpc : ℚ} {C L N : ℕ}
    (ps : List (ℕ × List Char)) (st : CharState)
    (hps : ∀ p ∈ ps, p.2 ≠ [] ∧ (∀ c ∈ p.2, isWsChar c = false) ∧ p.2.length ≤ C / L) :
    charCollect (ps.foldl (charStep send tpc C L N) st) =
      charCollect st ++ ps.map Prod.snd := by
  induction ps generalizing st with
  | nil => simp
  | cons p ps ih =>
      obtain ⟨hne, hclean, hshort⟩ := hps p (by simp)
      simp only [List.foldl_cons, List.map_cons]
      rw [ih _ (fun q hq => hps q (by simp [hq]))]
      rw [show charStep send tpc C L N st p =
            charStep send tpc C L N st (p.1, p.2) from by rfl]
      rw [charStep_collect hne hclean hshort]
      simp

theorem charFold_live {send tpc : ℚ} {C L N : ℕ}
    (ps : List (ℕ × List Char)) (st : CharState) (hne : ps ≠ [])
    (hps : ∀ p ∈ ps, p.2 ≠ [] ∧ p.2.length ≤ C / L) :
    (ps.foldl (charStep send tpc C L N) st).lines_in_block ≠ [] ∨
      (ps.foldl (charStep send tpc C L N) st).current_line ≠ [] := by
  rcases List.eq_nil_or_concat ps with h | ⟨qs, q, h⟩
  · exact absurd h hne
  · subst h
    rw [List.concat_eq_append, List.foldl_append, List.foldl_cons, List.foldl_nil]
    obtain ⟨hq1, hq2⟩ := hps q (by simp)
    rw [show charStep send tpc C L N (qs.foldl (charStep send tpc C L N) st) q =
          charStep send tpc C L N (qs.foldl (charStep send tpc C L N) st) (q.1, q.2) from by rfl]
    exact charStep_live hq1 hq2


/-! ### Invariants of the duration-split loop -/

theorem durStep_inv {segment : Segment} {sd : ℚ} {words : List (List Char)}
    {n : ℤ} {wps : ℕ} {st : DurState} {i : ℕ}
    (htok : ∀ w ∈ words, w ≠ [] ∧ ∀ c ∈ w, isWsChar c = false)
    (h : DurInv segment words st) :
    DurInv segment words (durStep segment sd words n wps st i) := by
  obtain ⟨hchain, hwords, hidx⟩ := h
  unfold durStep
  dsimp only
  set eidx := (if (i : ℤ) < n - 1 then
      min (st.start_word_idx + wps) words.length else words.length) with heidx
  have hle : st.start_word_idx ≤ eidx := by
    rw [heidx]
    split
    · exact le_min (Nat.le_add_right _ _) hidx
    · exact hidx
  have hlenle : eidx ≤ words.length := by
    rw [heidx]
    split
    · exact min_le_right _ _
    · exact le_refl _
  have hslice :
      splitWs (joinSep ' '
          ((words.drop st.start_word_idx).take (eidx - st.start_word_idx))) =
        (words.drop st.start_word_idx).take (eidx - st.start_word_idx) := by
    refine splitWs_join_space _ ?_
    intro w hw
    exact htok w (List.mem_of_mem_drop (List.mem_of_mem_take hw))
  split_ifs with hskip hpad
  · exact ⟨hchain, hwords, hidx⟩
  · refine ⟨chainFrom_append hchain (by linarith), ?_, hlenle⟩
    dsimp only
    rw [List.flatMap_append, hwords]
    simp only [List.flatMap_cons, List.flatMap_nil, List.append_nil]
    rw [hslice, ← List.take_add]
    congr 1
    omega
  · push_neg at hpad
    refine ⟨chainFrom_append hchain hpad, ?_, hlenle⟩
    dsimp only
    rw [List.flatMap_append, hwords]
    simp only [List.flatMap_cons, List.flatMap_nil, List.append_nil]
    rw [hslice, ← List.take_add]
    congr 1
    omega

theorem durFold_inv {segment : Segment} {sd : ℚ} {words : List (List Char)}
    {n : ℤ} {wps : ℕ}
    (htok : ∀ w ∈ words, w ≠ [] ∧ ∀ c ∈ w, isWsChar c = false)
    (ps : List ℕ) (st : DurState) (h : DurInv segment words st) :
    DurInv segment words (ps.foldl (durStep segment sd words n wps) st) := by
  induction ps generalizing st with
  | nil => exact h
  | cons p ps ih =>
      simp only [List.foldl_cons]
      exact ih _ (durStep_inv htok h)

theorem durFinalState_inv (segment : Segment) (max_duration : ℚ) :
    DurInv segment (splitWs segment.text) (durFinalState segment max_duration) := by
  unfold durFinalState
  dsimp only
  exact durFold_inv (fun w hw => splitWs_tokens _ w hw) _ _ ⟨rfl, by simp, by simp⟩

theorem duration_chunks_chain (segment : Segment) (max_duration : ℚ) :
    chainFrom segment.start_time (duration_chunks segment max_duration)
      (durFinalState segment max_duration).current_time :=
  (durFinalState_inv segment max_duration).1

theorem duration_chunks_mem_words (segment : Segment) (max_duration : ℚ) :
    ∀ b ∈ duration_chunks segment max_duration,
      ∀ w ∈ splitWs b.text, w ∈ splitWs segment.text := by
  intro b hb w hw
  have hinv := durFinalState_inv segment max_duration
  have : w ∈ (durFinalState segment max_duration).split_segments.flatMap
      (fun b => splitWs b.text) := by
    exact List.mem_flatMap.mpr ⟨b, hb, hw⟩
  rw [hinv.2.1] at this
  exact List.mem_of_mem_take this

theorem duration_chunks_words (segment : Segment) (max_duration : ℚ)
    (hne : duration_chunks segment max_duration ≠ []) :
    (duration_chunks segment max_duration).flatMap (fun b => splitWs b.text) =
      splitWs segment.text := by
  unfold duration_chunks durFinalState at hne ⊢
  dsimp only at hne ⊢
  set d := segment.end_time - segment.start_time with hd
  set n : ℤ := (d / max_duration).floor + 1 with hn
  set sd := d / (n : ℚ) with hsd
  set words := splitWs segment.text with hwords
  set wps := if 0 < n then words.length / n.toNat else words.length with hwps
  have htok : ∀ w ∈ words, w ≠ [] ∧ ∀ c ∈ w, isWsChar c = false :=
    fun w hw => splitWs_tokens _ w hw
  rcases hk : n.toNat with _ | k
  · rw [hk] at hne
    simp [List.range_zero] at hne
  · rw [hk] at hne
    rw [List.range_succ, List.foldl_append, List.foldl_cons, List.foldl_nil] at hne ⊢
    set st := (List.range k).foldl (durStep segment sd words n wps)
      ⟨[], segment.start_time, 0⟩ with hst
    have hinv : DurInv segment words st := by
      rw [hst]
      exact durFold_inv htok _ _ ⟨rfl, by simp, by simp⟩
    have hlast : ¬((k : ℤ) < n - 1) := by omega
    obtain ⟨hchain, hwordsinv, hidx⟩ := hinv
    unfold durStep at hne ⊢
    dsimp only at hne ⊢
    rw [if_neg hlast] at hne ⊢
    have hslice :
        splitWs (joinSep ' '
            ((words.drop st.start_word_idx).take (words.length - st.start_word_idx))) =
          (words.drop st.start_word_idx).take (words.length - st.start_word_idx) := by
      refine splitWs_join_space _ ?_
      intro w hw
      exact htok w (List.mem_of_mem_drop (List.mem_of_mem_take hw))
    split_ifs with hskip hpad
    · -- the last chunk is empty: every word was already consumed
      have hslicenil :
          (words.drop st.start_word_idx).take (words.length - st.start_word_idx) = [] := by
        by_contra hsl
        refine joinSep_ne_nil ' ' _ hsl ?_ hskip
        intro w hw
        exact (htok w (List.mem_of_mem_drop (List.mem_of_mem_take hw))).1
      have hlen : words.length - st.start_word_idx = 0 := by
        have := congrArg List.length hslicenil
        simp at this
        omega
      rw [hwordsinv]
      have : st.start_word_idx = words.length := by omega
      rw [this, List.take_length]
    · -- the last chunk takes all remaining words (padded window)
      dsimp only
      rw [List.flatMap_append, hwordsinv]
      simp only [List.flatMap_cons, List.flatMap_nil, List.append_nil]
      rw [hslice, ← List.take_add (l := words) (m := st.start_word_idx)]
      have : st.start_word_idx + (words.length - st.start_word_idx) = words.length := by
        omega
      rw [this, List.take_length]
    · -- the last chunk takes all remaining words
      dsimp only
      rw [List.flatMap_append, hwordsinv]
      simp only [List.flatMap_cons, List.flatMap_nil, List.append_nil]
      rw [hslice, ← List.take_add (l := words) (m := st.start_word_idx)]
      have : st.start_word_idx + (words.length - st.start_word_idx) = words.length := by
        omega
      rw [this, List.take_length]

theorem duration_chunks_of_no_words (segment : Segment) (max_duration : ℚ)
    (hno : splitWs segment.text = []) :
    duration_chunks segment max_duration = [] := by
  unfold duration_chunks durFinalState
  dsimp only
  rw [hno]
  have hstep : ∀ (sd : ℚ) (n : ℤ) (wps : ℕ) (st : DurState) (i : ℕ),
      durStep segment sd ([] : List (List Char)) n wps st i = st := by
    intro sd n wps st i
    unfold durStep
    dsimp only
    rw [if_pos]
    simp [joinSep]
  generalize (List.range ((((segment.end_time - segment.start_time) / max_duration).floor + 1)).toNat) = ps
  induction ps with
  | nil => rfl
  | cons p ps ih =>
      rw [List.foldl_cons, hstep]
      exact ih


/-! ### Structure of the split pipeline -/

theorem split_segment_eq_pieces (segment : Segment) (C L : ℕ) (D : ℚ) :
    split_segment segment C L D =
      (duration_pieces segment D).flatMap (fun p => split_segment_by_chars p C L) := by
  unfold split_segment duration_pieces
  dsimp only
  split_ifs with h1 h2
  · rfl
  · simp only [List.flatMap_cons, List.flatMap_nil, List.append_nil]
  · simp only [List.flatMap_cons, List.flatMap_nil, List.append_nil]
    unfold split_segment_by_chars
    rw [if_pos (by omega)]

theorem charBlocksRaw_cases (segment : Segment) (C L : ℕ) :
    charBlocksRaw segment C L = (charFinalState segment C L).split_segments ∨
      charBlocksRaw segment C L = (charFinalState segment C L).split_segments ++
        [⟨(charFinalState segment C L).current_start_time, segment.end_time,
          joinSep '\n' (charFinalLines (charFinalState segment C L))⟩] := by
  unfold charBlocksRaw
  dsimp only
  split_ifs with h
  · left; rfl
  · right; rfl

theorem charBlocksRaw_pairwise_lt (segment : Segment) (C L : ℕ) :
    (charBlocksRaw segment C L).Pairwise
      (fun x y => x.start_time < y.start_time) := by
  have hinv := charFinalState_inv segment C L
  have hchain := hinv.1
  rcases charBlocksRaw_cases segment C L with h | h <;> rw [h]
  · exact chainFrom_pairwise_lt hchain
  · rw [List.pairwise_append]
    refine ⟨chainFrom_pairwise_lt hchain, by simp, ?_⟩
    intro x hx y hy
    simp only [List.mem_singleton] at hy
    subst hy
    obtain ⟨h1, h2, h3⟩ := chainFrom_mem hchain x hx
    dsimp only
    linarith

theorem charBlocksRaw_start_lb (segment : Segment) (C L : ℕ) :
    ∀ b ∈ charBlocksRaw segment C L, segment.start_time ≤ b.start_time := by
  have hinv := charFinalState_inv segment C L
  have hchain := hinv.1
  intro b hb
  rcases charBlocksRaw_cases segment C L with h | h <;> rw [h] at hb
  · exact (chainFrom_mem hchain b hb).1
  · rcases List.mem_append.mp hb with hb | hb
    · exact (chainFrom_mem hchain b hb).1
    · simp only [List.mem_singleton] at hb
      subst hb
      exact chainFrom_le hchain

theorem split_by_chars_pairwise_lt (p : Segment) (C L : ℕ) :
    (split_segment_by_chars p C L).Pairwise
      (fun x y => x.start_time < y.start_time) := by
  unfold split_segment_by_chars
  split_ifs with h1 h2
  · simp
  · simp
  · exact List.Pairwise.sublist (List.filter_sublist _)
      (charBlocksRaw_pairwise_lt p C L)

theorem split_by_chars_start_lb (p : Segment) (C L : ℕ) :
    ∀ b ∈ split_segment_by_chars p C L, p.start_time ≤ b.start_time := by
  unfold split_segment_by_chars
  split_ifs with h1 h2
  · intro b hb
    simp only [List.mem_singleton] at hb
    subst hb
    exact le_refl _
  · intro b hb
    simp only [List.mem_singleton] at hb
    subst hb
    exact le_refl _
  · intro b hb
    exact charBlocksRaw_start_lb p C L b (List.mem_of_mem_filter hb)

theorem charFinalState_collect (p : Segment) (C L : ℕ)
    (hgood : ∀ w ∈ splitWs p.text, w.length ≤ C / L) :
    charCollect (charFinalState p C L) = splitWs p.text := by
  unfold charFinalState
  dsimp only
  rw [charFold_collect]
  · have henum : ((splitWs p.text).enum).map Prod.snd = splitWs p.text := by
      rw [List.enum, List.enumFrom_map_snd]
    simp [charCollect, splitWs_nil, henum]
  · intro q hq
    have hmem : q.2 ∈ splitWs p.text := by
      have := List.mem_map_of_mem Prod.snd hq
      rwa [List.enum, List.enumFrom_map_snd] at this
    exact ⟨(splitWs_tokens _ _ hmem).1, (splitWs_tokens _ _ hmem).2, hgood _ hmem⟩

theorem charFinalState_live (p : Segment) (C L : ℕ)
    (hw : splitWs p.text ≠ [])
    (hgood : ∀ w ∈ splitWs p.text, w.length ≤ C / L) :
    (charFinalState p C L).lines_in_block ≠ [] ∨
      (charFinalState p C L).current_line ≠ [] := by
  unfold charFinalState
  dsimp only
  refine charFold_live _ _ ?_ ?_
  · intro h
    apply hw
    have := congrArg (List.map Prod.snd) h
    rwa [List.enum, List.enumFrom_map_snd] at this
  · intro q hq
    have hmem : q.2 ∈ splitWs p.text := by
      have := List.mem_map_of_mem Prod.snd hq
      rwa [List.enum, List.enumFrom_map_snd] at this
    exact ⟨(splitWs_tokens _ _ hmem).1, hgood _ hmem⟩

theorem charBlocksRaw_words (p : Segment) (C L : ℕ)
    (hgood : ∀ w ∈ splitWs p.text, w.length ≤ C / L) :
    (charBlocksRaw p C L).flatMap (fun b => splitWs b.text) = splitWs p.text := by
  have hcollect := charFinalState_collect p C L hgood
  unfold charBlocksRaw
  dsimp only
  unfold charCollect at hcollect
  split_ifs with h
  · -- no pending final block: the pending lines and line are empty
    unfold charFinalLines at h
    rcases em ((charFinalState p C L).current_line = []) with hcur | hcur
    · rw [if_pos hcur] at h
      rw [← hcollect, h, hcur]
      simp [splitWs_nil]
    · rw [if_neg hcur] at h
      exact absurd h (by simp)
  · rw [List.flatMap_append]
    simp only [List.flatMap_cons, List.flatMap_nil, List.append_nil]
    rw [splitWs_join_nl, ← hcollect]
    unfold charFinalLines
    rcases em ((charFinalState p C L).current_line = []) with hcur | hcur
    · rw [if_pos hcur, hcur]
      simp [splitWs_nil]
    · rw [if_neg hcur]
      simp [List.flatMap_append]

theorem split_by_chars_prefilter_words (p : Segment) (C L : ℕ)
    (hgood : ∀ w ∈ splitWs p.text, w.length ≤ C / L) :
    (split_by_chars_prefilter p C L).flatMap (fun b => splitWs b.text) =
      splitWs p.text := by
  unfold split_by_chars_prefilter
  split_ifs with h1 h2
  · simp
  · simp
  · exact charBlocksRaw_words p C L hgood


/-! ### Facts about the write loop -/

theorem write_block_start (s : Segment) (C L : ℕ) :
    (write_block s C L).start_time = s.start_time := rfl

theorem write_block_lines (s : Segment) (C L : ℕ) :
    (write_block s C L).lines = (final_lines s.text C).take L := rfl

theorem write_block_strict (s : Segment) (C L : ℕ) :
    (write_block s C L).start_time < (write_block s C L).end_time := by
  unfold write_block
  dsimp only
  split_ifs with h
  · linarith
  · push_neg at h
    exact h

theorem write_block_end_of_lt (s : Segment) (C L : ℕ)
    (h : s.start_time < s.end_time) :
    (write_block s C L).end_time = s.end_time := by
  unfold write_block
  dsimp only
  rw [if_neg (not_le.mpr h)]

theorem wrap_line_good (line : List Char) (C : ℕ) :
    ∀ l ∈ wrap_line line C, l.length ≤ C ∨ ∀ c ∈ l, isWsChar c = false := by
  unfold wrap_line
  dsimp only
  suffices h : ∀ (ws : List (List Char)) (st : List (List Char) × List Char × ℕ),
      (∀ w ∈ ws, w ≠ [] ∧ ∀ c ∈ w, isWsChar c = false) →
      (∀ l ∈ st.1, l.length ≤ C ∨ ∀ c ∈ l, isWsChar c = false) →
      st.2.2 = st.2.1.length →
      (st.2.1.length ≤ C ∨ ∀ c ∈ st.2.1, isWsChar c = false) →
      ∀ l ∈ (ws.foldl (wrapStep C) st).1 ++ [(ws.foldl (wrapStep C) st).2.1],
        l.length ≤ C ∨ ∀ c ∈ l, isWsChar c = false by
    intro l hl
    exact h (splitWs line) ([], [], 0) (fun w hw => splitWs_tokens _ w hw)
      (by simp) (by simp) (by simp) l hl
  intro ws
  induction ws with
  | nil =>
      intro st hws hacc hsync hcur l hl
      rcases List.mem_append.mp hl with hl | hl
      · exact hacc l hl
      · simp only [List.mem_singleton] at hl
        subst hl
        exact hcur
  | cons w ws ih =>
      intro st hws hacc hsync hcur l hl
      simp only [List.foldl_cons] at hl
      obtain ⟨hwne, hwclean⟩ := hws w (by simp)
      refine ih _ (fun v hv => hws v (by simp [hv])) ?_ ?_ ?_ l hl
      · -- the closed lines stay compliant
        unfold wrapStep
        dsimp only
        split_ifs with h1 h2
        · exact hacc
        · exact hacc
        · intro x hx
          rcases List.mem_append.mp hx with hx | hx
          · exact hacc x hx
          · simp only [List.mem_singleton] at hx
            subst hx
            exact hcur
      · -- the tracked length stays in sync with the open line
        unfold wrapStep
        dsimp only
        split_ifs with h1 h2
        · rw [hsync]
          simp
        · rw [hsync]
          simp [List.length_append]
          omega
        · rfl
      · -- the open line is compliant or a single word
        unfold wrapStep
        dsimp only
        split_ifs with h1 h2
        · right
          have hnil : st.2.1 = [] :=
            List.eq_nil_of_length_eq_zero (by omega)
          rw [hnil]
          simpa using hwclean
        · left
          rw [hsync] at h2
          simp [List.length_append]
          omega
        · right
          simpa using hwclean

theorem final_lines_good (text : List Char) (C : ℕ) :
    ∀ l ∈ final_lines text C, l.length ≤ C ∨ ∀ c ∈ l, isWsChar c = false := by
  intro l hl
  unfold final_lines at hl
  rcases List.mem_flatMap.mp hl with ⟨line, hline, hl⟩
  split_ifs at hl with h
  · exact wrap_line_good line C l hl
  · simp only [List.mem_singleton] at hl
    subst hl
    left
    omega


/-! ### The claims -/

/-- Claim C1: for every transcription result and every configuration with
`max_chars_per_segment ≥ 1`, `max_lines_per_block ≥ 1` and
`max_duration_seconds > 0`, every cue block written by `format_subtitles`
has `end_time` strictly greater than `start_time` at the moment its
timestamps are formatted: a candidate cue with `end_time ≤ start_time` is
padded to `start_time + 0.1` before being written, so the strict
inequality is never violated in the output. -/
theorem C1_end_strictly_after_start (r : TranscriptionResult)
    (maxC maxL : ℕ) (maxD : ℚ)
    (hC : 1 ≤ maxC) (hL : 1 ≤ maxL) (hD : 0 < maxD) :
    ∀ b ∈ written_blocks r maxC maxL maxD, b.start_time < b.end_time := by
  intro b hb
  unfold written_blocks at hb
  rcases List.mem_map.mp hb with ⟨s, hs, rfl⟩
  exact write_block_strict s maxC maxL

/-- Witness for C1 at Scenario A. -/
theorem C1_witness :
    (write_block ⟨0, 5, helloWorldChars⟩ 80 2).start_time <
      (write_block ⟨0, 5, helloWorldChars⟩ 80 2).end_time :=
  C1_end_strictly_after_start ⟨none, [⟨0, 5, helloWorldChars⟩]⟩ 80 2 7
    (by decide) (by decide) (by decide) _ (by decide)

/-- Claim C8: every written cue has at most `max_lines_per_block` lines,
and every written line is at most `max_chars_per_segment` characters long
unless it is a single whitespace-free word kept intact. -/
theorem C8_line_limits (r : TranscriptionResult) (maxC maxL : ℕ) (maxD : ℚ) :
    ∀ b ∈ written_blocks r maxC maxL maxD,
      b.lines.length ≤ maxL ∧
        ∀ l ∈ b.lines, l.length ≤ maxC ∨ ∀ c ∈ l, isWsChar c = false := by
  intro b hb
  unfold written_blocks at hb
  rcases List.mem_map.mp hb with ⟨s, hs, rfl⟩
  rw [write_block_lines]
  constructor
  · rw [List.length_take]
    exact min_le_left _ _
  · intro l hl
    exact final_lines_good s.text maxC l (List.mem_of_mem_take hl)

/-- Witness for C8 at Scenario A. -/
theorem C8_witness :
    (write_block ⟨0, 5, helloWorldChars⟩ 80 2).lines.length ≤ 2 :=
  (C8_line_limits ⟨none, [⟨0, 5, helloWorldChars⟩]⟩ 80 2 7 _ (by decide)).1

/-- Claim C10: `format_subtitles` fails with `FormattingError`, and with no
other error, exactly when opening or writing the output stream fails; the
splitting arithmetic is total, and in particular `time_per_char` branches
on the text length before dividing, so zero-length text yields `0` instead
of a division by zero. -/
theorem C10_error_contract (r : TranscriptionResult) (maxC maxL : ℕ)
    (maxD : ℚ) (io : StreamOutcome) :
    ((∃ e, format_subtitles_run r maxC maxL maxD io = .error e) ↔
        io = .writeFails) ∧
      ∀ seg : Segment, seg.text.length = 0 → time_per_char seg = 0 := by
  constructor
  · cases io with
    | ok => simp [format_subtitles_run]
    | writeFails => simp [format_subtitles_run]
  · intro seg h
    unfold time_per_char
    rw [if_neg (by omega)]

/-- Witness for C10: the empty-text guard at a concrete segment. -/
theorem C10_witness : time_per_char ⟨0, 2, []⟩ = 0 :=
  (C10_error_contract ⟨none, []⟩ 80 2 7 .ok).2 ⟨0, 2, []⟩ rfl

/-- Claim C4 counterexample: `format_subtitles` mutates the input Segment
object `Segment(5, 5, "hi")` — the segment is passed through unsplit, so
the write loop's padding assignment `segment.end_time = segment.start_time
+ 0.1` changes the input object's `end_time` from `5` to `5.1`. -/
theorem C4_counterexample :
    format_final_segments ⟨none, [⟨5, 5, hiChars⟩]⟩ 80 2 7 ≠
      [⟨5, 5, hiChars⟩] := by decide

/-- Claim C4 amended: the pipeline never mutates the `start_time` or
`text` of an input Segment, and never mutates a Segment it actually
splits; but an input Segment returned unsplit (aliased) whose
`end_time ≤ start_time` is mutated by the write loop's padding: its
`end_time` becomes `start_time + 0.1`. -/
theorem C4_amended_mutation (seg : Segment) (maxC maxL : ℕ) (maxD : ℚ) :
    (final_input_segment seg maxC maxL maxD).start_time = seg.start_time ∧
      (final_input_segment seg maxC maxL maxD).text = seg.text ∧
      (final_input_segment seg maxC maxL maxD = seg ∨
        (seg.end_time ≤ seg.start_time ∧
          split_segment seg (maxC * maxL) maxL maxD = [seg] ∧
          (final_input_segment seg maxC maxL maxD).end_time =
            seg.start_time + 1/10)) := by
  have halias : split_aliased seg (maxC * maxL) maxL maxD = true →
      split_segment seg (maxC * maxL) maxL maxD = [seg] := by
    intro h
    unfold split_aliased at h
    unfold split_segment
    dsimp only at h ⊢
    by_cases h1 : maxD * (3/2) < seg.end_time - seg.start_time ∧
        duration_chunks seg maxD ≠ []
    · rw [if_pos h1] at h
      cases h
    · rw [if_neg h1] at h ⊢
      by_cases h2 : maxC * maxL < seg.text.length
      · rw [if_pos h2] at h ⊢
        unfold char_split_aliased at h
        unfold split_segment_by_chars
        rcases Bool.or_eq_true_iff.mp h with h | h
        · have := of_decide_eq_true h
          omega
        · rw [if_neg (by omega), if_pos (by simpa using h)]
      · rw [if_neg h2]
  unfold final_input_segment
  split_ifs with hcond
  · rw [Bool.and_eq_true] at hcond
    exact ⟨rfl, rfl, Or.inr ⟨of_decide_eq_true hcond.2, halias hcond.1, rfl⟩⟩
  · exact ⟨rfl, rfl, Or.inl rfl⟩

/-- Claim C5 counterexample: `Segment(0, 2, "")` does emit a cue block —
the empty segment is passed through unsplit and the write loop writes an
index, a timestamp line and an empty text line for it. -/
theorem C5_counterexample :
    (written_blocks ⟨none, [⟨0, 2, []⟩]⟩ 80 2 7).length = 1 := by decide

/-- Claim C5 amended: a segment with empty text is passed through the
splitter unchanged and emits exactly one cue block whose text is a single
empty line; only empty sub-segments created during splitting are filtered
out, a wholly empty segment is not dropped. -/
theorem C5_amended_empty_text (seg : Segment) (maxC maxL : ℕ) (maxD : ℚ)
    (hL : 1 ≤ maxL) (h : seg.text = []) :
    split_segment seg (maxC * maxL) maxL maxD = [seg] ∧
      (write_block seg maxC maxL).lines = [[]] := by
  have hwords : splitWs seg.text = [] := by rw [h]; rfl
  constructor
  · have hc1 : ¬(maxD * (3/2) < seg.end_time - seg.start_time ∧
        duration_chunks seg maxD ≠ []) := by
      rintro ⟨_, h2⟩
      exact h2 (duration_chunks_of_no_words seg maxD hwords)
    have hc2 : ¬(maxC * maxL < seg.text.length) := by
      rw [h]
      simp
    unfold split_segment
    dsimp only
    rw [if_neg hc1, if_neg hc2]
  · rw [write_block_lines, h]
    have hfl : final_lines [] maxC = [[]] := by
      unfold final_lines
      simp [splitOnChar]
    rw [hfl]
    cases maxL with
    | zero => omega
    | succ k => simp

/-- Witness for C5 at Scenario E. -/
theorem C5_witness :
    split_segment ⟨0, 2, []⟩ (80 * 2) 2 7 = [⟨0, 2, []⟩] ∧
      (write_block ⟨0, 2, []⟩ 80 2).lines = [[]] :=
  C5_amended_empty_text ⟨0, 2, []⟩ 80 2 7 (by decide) rfl

/-- Claim C6 counterexample: `Segment(5, 5, "hi")` satisfies the identity
law's hypotheses (duration `0 ≤ 7`, `len 2 ≤ 160`, non-empty text), yet
the single emitted cue does not keep the segment's `end_time`: it is
written with `end_time = 5.1`. -/
theorem C6_counterexample :
    (written_blocks ⟨none, [⟨5, 5, hiChars⟩]⟩ 80 2 7).length = 1 ∧
      (written_blocks ⟨none, [⟨5, 5, hiChars⟩]⟩ 80 2 7).map Block.end_time ≠
        [(5 : ℚ)] := by decide

/-- Claim C6 amended: a segment with non-empty newline-free text,
strictly positive duration at most `max_duration_seconds`, and text
length at most `max_chars_per_segment` (the per-line cap, so the final
wrap pass cannot insert a newline) yields exactly one cue with unchanged
start/end and its text as the single unchanged line. -/
theorem C6_amended_identity (seg : Segment) (maxC maxL : ℕ) (maxD : ℚ)
    (hL : 1 ≤ maxL) (hne : seg.text ≠ []) (hnl : '\n' ∉ seg.text)
    (hpos : seg.start_time < seg.end_time)
    (hdur : seg.end_time - seg.start_time ≤ maxD)
    (hlen : seg.text.length ≤ maxC) :
    split_segment seg (maxC * maxL) maxL maxD = [seg] ∧
      write_block seg maxC maxL = ⟨seg.start_time, seg.end_time, [seg.text]⟩ := by
  have hD : 0 < maxD := by linarith
  have hCC : maxC ≤ maxC * maxL := by
    calc maxC = maxC * 1 := (Nat.mul_one maxC).symm
    _ ≤ maxC * maxL := Nat.mul_le_mul_left maxC hL
  constructor
  · unfold split_segment
    dsimp only
    rw [if_neg (by rintro ⟨h1, _⟩; linarith), if_neg (by omega)]
  · unfold write_block
    dsimp only
    rw [if_neg (not_le.mpr hpos)]
    refine congrArg (Block.mk seg.start_time seg.end_time) ?_
    have hsplit : splitOnChar '\n' seg.text = [seg.text] :=
      splitOnChar_no_sep '\n' seg.text (fun c hc hcn => hnl (hcn ▸ hc))
    unfold final_lines
    rw [hsplit]
    simp only [List.flatMap_cons, List.flatMap_nil, List.append_nil]
    rw [if_neg (by omega)]
    cases maxL with
    | zero => omega
    | succ k => simp

/-- Witness for C6 at Scenario A. -/
theorem C6_witness :
    split_segment ⟨0, 5, helloWorldChars⟩ (80 * 2) 2 7 =
        [⟨0, 5, helloWorldChars⟩] ∧
      write_block ⟨0, 5, helloWorldChars⟩ 80 2 =
        ⟨0, 5, [helloWorldChars]⟩ :=
  C6_amended_identity ⟨0, 5, helloWorldChars⟩ 80 2 7 (by decide) (by decide)
    (by decide) (by decide) (by decide) (by decide)

/-- Claim C7 (Scenario B): splitting `Segment(0, 20, 100 × "word")` with
`max_duration = 7.0` and the default char limits (80 per line, 2 lines)
yields exactly 3 cues of exactly `20/3 ≈ 6.67` seconds each, with word
counts 33, 33 and 34. -/
theorem C7_scenarioB :
    (split_segment ⟨0, 20, scenarioBText⟩ (80 * 2) 2 7).length = 3 ∧
      (split_segment ⟨0, 20, scenarioBText⟩ (80 * 2) 2 7).map
          (fun s => s.end_time - s.start_time) = [20/3, 20/3, 20/3] ∧
      (split_segment ⟨0, 20, scenarioBText⟩ (80 * 2) 2 7).map
          (fun s => (splitWs s.text).length) = [33, 33, 34] := by decide


/-- Claim C2 counterexample: the zero-duration segment
`Segment(0, 0, 40 × "word")` has 40 usable words, yet the splitting
pipeline emits no sub-segment at all for it — its single candidate block
has `end_time = start_time`, so the final filter of
`_split_segment_by_chars` drops it and every word is lost. -/
theorem C2_counterexample :
    split_segment ⟨0, 0, fortyWordText⟩ (80 * 2) 2 7 = [] ∧
      splitWs fortyWordText ≠ [] := by decide

theorem duration_pieces_pairwise_sep (seg : Segment) (maxD : ℚ) :
    (duration_pieces seg maxD).Pairwise
      (fun x y => x.end_time ≤ y.start_time) := by
  unfold duration_pieces
  dsimp only
  split_ifs with h
  · exact chainFrom_pairwise_sep (duration_chunks_chain seg maxD)
  · simp

theorem duration_pieces_start_lb (seg : Segment) (maxD : ℚ) :
    ∀ p ∈ duration_pieces seg maxD, seg.start_time ≤ p.start_time := by
  unfold duration_pieces
  dsimp only
  split_ifs with h
  · intro p hp
    exact (chainFrom_mem (duration_chunks_chain seg maxD) p hp).1
  · intro p hp
    simp only [List.mem_singleton] at hp
    subst hp
    exact le_refl _

/-- Claim C2 amended: for every segment all of whose words are at most
`max_chars_per_segment` characters long, concatenating the
whitespace-normalized texts of all blocks the pipeline builds *before*
the final filter of `_split_segment_by_chars` reconstructs the segment's
normalized text. The filter can then drop a trailing block whose padded
start reached the segment's `end_time` (losing its words, as in the
counterexample), and a word longer than the per-line threshold can be
duplicated by the long-line branch, so conservation holds only in this
pre-filter, short-word form. -/
theorem C2_amended_conservation (seg : Segment) (maxC maxL : ℕ) (maxD : ℚ)
    (hL : 1 ≤ maxL)
    (hshort : ∀ w ∈ splitWs seg.text, w.length ≤ maxC) :
    ((duration_pieces seg maxD).flatMap
        (fun p => split_by_chars_prefilter p (maxC * maxL) maxL)).flatMap
      (fun b => splitWs b.text) = splitWs seg.text := by
  have hdiv : (maxC * maxL) / maxL = maxC := Nat.mul_div_cancel _ (by omega)
  have hpiece : ∀ p ∈ duration_pieces seg maxD,
      (split_by_chars_prefilter p (maxC * maxL) maxL).flatMap
        (fun b => splitWs b.text) = splitWs p.text := by
    intro p hp
    refine split_by_chars_prefilter_words p _ _ ?_
    intro w hw
    rw [hdiv]
    unfold duration_pieces at hp
    dsimp only at hp
    split_ifs at hp with h1
    · exact hshort w (duration_chunks_mem_words seg maxD p hp w hw)
    · simp only [List.mem_singleton] at hp
      subst hp
      exact hshort w hw
  rw [List.flatMap_assoc]
  have hcongr : (duration_pieces seg maxD).flatMap
      (fun p => (split_by_chars_prefilter p (maxC * maxL) maxL).flatMap
        (fun b => splitWs b.text)) =
      (duration_pieces seg maxD).flatMap (fun p => splitWs p.text) := by
    unfold List.flatMap
    exact congrArg List.flatten (List.map_congr_left hpiece)
  rw [hcongr]
  unfold duration_pieces
  dsimp only
  split_ifs with h1
  · exact duration_chunks_words seg maxD h1.2
  · simp

/-- Witness for C2 at Scenario A. -/
theorem C2_witness :
    ((duration_pieces ⟨0, 5, helloWorldChars⟩ 7).flatMap
        (fun p => split_by_chars_prefilter p (80 * 2) 2)).flatMap
      (fun b => splitWs b.text) = splitWs helloWorldChars :=
  C2_amended_conservation ⟨0, 5, helloWorldChars⟩ 80 2 7 (by decide) (by decide)


/-- Claim C3 counterexample: `Segment(0, 12, "hello")` with the default
configuration is split into one cue of 6 seconds: the duration splitter
skips its word-empty first chunk without advancing time, so the summed cue
duration `6` falls below the original duration `12` instead of lying in
`[12, 12.1]`. -/
theorem C3_counterexample :
    ((split_segment ⟨0, 12, helloChars⟩ (80 * 2) 2 7).map
        (fun s => write_block s 80 2)).length = 1 ∧
      (((split_segment ⟨0, 12, helloChars⟩ (80 * 2) 2 7).map
          (fun s => write_block s 80 2)).map blockDur).sum < 12 := by decide

theorem sum_blockDur_of_strict (blocks : List Segment) (C L : ℕ)
    (h : ∀ b ∈ blocks, b.start_time < b.end_time) :
    ((blocks.map (fun s => write_block s C L)).map blockDur).sum =
      (blocks.map (fun b => b.end_time - b.start_time)).sum := by
  rw [List.map_map]
  refine congrArg List.sum ?_
  refine List.map_congr_left ?_
  intro b hb
  show blockDur (write_block b C L) = b.end_time - b.start_time
  unfold blockDur
  rw [write_block_end_of_lt _ _ _ (h b hb), write_block_start]

/-- Claim C3 amended: for a segment with `start_time ≤ end_time` whose
duration does not trigger the duration splitter
(`duration ≤ 1.5 × max_duration`) and whose words are all at most
`max_chars_per_segment` long, the sum of the emitted cue durations lies in
`[original_duration, original_duration + 0.1 × k]` for `k` emitted cues.
When the duration splitter fires it can skip word-empty chunks without
advancing time (see the counterexample), and a word longer than the
per-line threshold can end the split before the segment's `end_time`, so
the law holds only in this restricted form. -/
theorem C3_amended_time_conservation (seg : Segment) (maxC maxL : ℕ)
    (maxD : ℚ)
    (hse : seg.start_time ≤ seg.end_time)
    (hdur : seg.end_time - seg.start_time ≤ maxD * (3/2))
    (hL : 1 ≤ maxL)
    (hshort : ∀ w ∈ splitWs seg.text, w.length ≤ maxC) :
    seg.end_time - seg.start_time ≤
        (((split_segment seg (maxC * maxL) maxL maxD).map
            (fun s => write_block s maxC maxL)).map blockDur).sum ∧
      (((split_segment seg (maxC * maxL) maxL maxD).map
          (fun s => write_block s maxC maxL)).map blockDur).sum ≤
        (seg.end_time - seg.start_time) +
          (((split_segment seg (maxC * maxL) maxL maxD).map
              (fun s => write_block s maxC maxL)).length : ℚ) * (1/10) := by
  have hdiv : (maxC * maxL) / maxL = maxC := Nat.mul_div_cancel _ (by omega)
  have hsplit : split_segment seg (maxC * maxL) maxL maxD =
      split_segment_by_chars seg (maxC * maxL) maxL := by
    unfold split_segment
    dsimp only
    rw [if_neg (by rintro ⟨hx, _⟩; linarith)]
    split_ifs with h2
    · rfl
    · unfold split_segment_by_chars
      rw [if_pos (by omega)]
  rw [hsplit]
  have hone :
      seg.end_time - seg.start_time ≤
          ((([seg]).map (fun s => write_block s maxC maxL)).map blockDur).sum ∧
        ((([seg]).map (fun s => write_block s maxC maxL)).map blockDur).sum ≤
          (seg.end_time - seg.start_time) +
            ((([seg]).map (fun s => write_block s maxC maxL)).length : ℚ) * (1/10) := by
    simp only [List.map_cons, List.map_nil, List.sum_cons, List.sum_nil,
      List.length_cons, List.length_nil, blockDur]
    unfold write_block
    dsimp only
    split_ifs with hp
    · constructor
      · linarith
      · push_cast
        linarith
    · push_neg at hp
      constructor
      · linarith
      · push_cast
        linarith
  unfold split_segment_by_chars
  split_ifs with h1 h2
  · exact hone
  · exact hone
  · -- the segment is actually split by characters
    have hw : splitWs seg.text ≠ [] := h2
    have hshort' : ∀ w ∈ splitWs seg.text, w.length ≤ (maxC * maxL) / maxL := by
      intro w hw'
      rw [hdiv]
      exact hshort w hw'
    obtain ⟨hchain, htexts, hlines, hbound⟩ :=
      charFinalState_inv seg (maxC * maxL) maxL
    have hlive := charFinalState_live seg (maxC * maxL) maxL hw hshort'
    set st := charFinalState seg (maxC * maxL) maxL with hst
    have hlf : charFinalLines st ≠ [] := by
      unfold charFinalLines
      split_ifs with hc
      · rcases hlive with h | h
        · exact h
        · exact absurd hc h
      · simp
    have hlfent : ∀ l ∈ charFinalLines st, l ≠ [] := by
      unfold charFinalLines
      split_ifs with hc
      · exact hlines
      · intro l hl
        rcases List.mem_append.mp hl with hl | hl
        · exact hlines l hl
        · simp only [List.mem_singleton] at hl
          subst hl
          exact hc
    have hfintext : joinSep '\n' (charFinalLines st) ≠ [] :=
      joinSep_ne_nil _ _ hlf hlfent
    have hraw : charBlocksRaw seg (maxC * maxL) maxL =
        st.split_segments ++
          [⟨st.current_start_time, seg.end_time,
            joinSep '\n' (charFinalLines st)⟩] := by
      unfold charBlocksRaw
      dsimp only
      rw [if_neg hlf]
    rw [hraw, List.filter_append]
    have hacc : st.split_segments.filter
        (fun s => !s.text.isEmpty && decide (s.start_time < s.end_time)) =
        st.split_segments := by
      refine List.filter_eq_self.mpr ?_
      intro b hb
      have h1 := htexts b hb
      have h2 := (chainFrom_mem hchain b hb).2.1
      simp [List.isEmpty_iff, h1, h2]
    rw [hacc]
    rcases lt_or_le st.current_start_time seg.end_time with hce | hce
    · -- the final block survives the filter
      have hfin : (List.filter
          (fun s : Segment => !s.text.isEmpty && decide (s.start_time < s.end_time))
          [(⟨st.current_start_time, seg.end_time,
            joinSep '\n' (charFinalLines st)⟩ : Segment)]) =
          [(⟨st.current_start_time, seg.end_time,
            joinSep '\n' (charFinalLines st)⟩ : Segment)] := by
        refine List.filter_eq_self.mpr ?_
        intro b hb
        simp only [List.mem_singleton] at hb
        subst hb
        simp [List.isEmpty_iff, hfintext, hce]
      rw [hfin]
      have hstrict : ∀ b ∈ st.split_segments ++
          [⟨st.current_start_time, seg.end_time,
            joinSep '\n' (charFinalLines st)⟩], b.start_time < b.end_time := by
        intro b hb
        rcases List.mem_append.mp hb with hb | hb
        · exact (chainFrom_mem hchain b hb).2.1
        · simp only [List.mem_singleton] at hb
          subst hb
          exact hce
      rw [sum_blockDur_of_strict _ _ _ hstrict]
      rw [List.map_append, List.sum_append, chainFrom_sum hchain]
      simp only [List.map_cons, List.map_nil, List.sum_cons, List.sum_nil]
      constructor
      · dsimp only
        linarith
      · have hk : (0:ℚ) ≤ (((st.split_segments ++
            [(⟨st.current_start_time, seg.end_time,
              joinSep '\n' (charFinalLines st)⟩ : Segment)]).map
                (fun s => write_block s maxC maxL)).length : ℚ) * (1/10) := by
          positivity
        linarith
    · -- the final block is dropped by the filter
      have hfin : (List.filter
          (fun s : Segment => !s.text.isEmpty && decide (s.start_time < s.end_time))
          [(⟨st.current_start_time, seg.end_time,
            joinSep '\n' (charFinalLines st)⟩ : Segment)]) = [] := by
        simp [not_lt.mpr hce]
      rw [hfin, List.append_nil]
      have hstrict : ∀ b ∈ st.split_segments, b.start_time < b.end_time :=
        fun b hb => (chainFrom_mem hchain b hb).2.1
      rw [sum_blockDur_of_strict _ _ _ hstrict, chainFrom_sum hchain]
      have hb := hbound hse
      constructor
      · linarith
      · have hlen : ((st.split_segments.map
            (fun s => write_block s maxC maxL)).length : ℚ) =
            (st.split_segments.length : ℚ) := by
          simp
        rw [hlen]
        linarith

/-- Witness for C3 at Scenario A. -/
theorem C3_witness :
    (5 : ℚ) - 0 ≤
        (((split_segment ⟨0, 5, helloWorldChars⟩ (80 * 2) 2 7).map
            (fun s => write_block s 80 2)).map blockDur).sum ∧
      (((split_segment ⟨0, 5, helloWorldChars⟩ (80 * 2) 2 7).map
          (fun s => write_block s 80 2)).map blockDur).sum ≤
        ((5 : ℚ) - 0) +
          (((split_segment ⟨0, 5, helloWorldChars⟩ (80 * 2) 2 7).map
              (fun s => write_block s 80 2)).length : ℚ) * (1/10) :=
  C3_amended_time_conservation ⟨0, 5, helloWorldChars⟩ 80 2 7 (by decide)
    (by decide) (by decide) (by decide)


/-- Claim C9 counterexample: for the temporally ordered input
`[Segment(0, 0, 100 × "word"), Segment(0.05, 1, "hi")]` with the default
configuration, the write order's start times are `[0, 0.1, 0.05]`: the
zero-duration first segment's padded cues overshoot past `0.05`, so the
emitted `start_time` sequence is not non-decreasing. -/
theorem C9_counterexample :
    outOfOrderInput.segments.Pairwise (fun a b => a.end_time ≤ b.start_time) ∧
      ¬ ((written_blocks outOfOrderInput 80 2 7).map Block.start_time).Pairwise
          (· ≤ ·) := by decide

/-- Claim C9 amended: cue emission order always follows input segment
order (the writer walks the split results segment by segment), and the
emitted `start_time` sequence is non-decreasing provided the segments are
non-overlapping and no derived piece or cue overshoots its source's
`end_time` — that is, every duration piece ends by its segment's
`end_time` and every char-split cue starts by its piece's `end_time`
(minimum-duration padding can violate this, as in the counterexample). -/
theorem C9_amended_monotonicity (r : TranscriptionResult) (maxC maxL : ℕ)
    (maxD : ℚ)
    (hord : r.segments.Pairwise (fun a b => a.end_time ≤ b.start_time))
    (hin : ∀ seg ∈ r.segments, ∀ p ∈ duration_pieces seg maxD,
      p.end_time ≤ seg.end_time ∧
        ∀ b ∈ split_segment_by_chars p (maxC * maxL) maxL,
          b.start_time ≤ p.end_time) :
    ((written_blocks r maxC maxL maxD).map Block.start_time).Pairwise
      (· ≤ ·) := by
  unfold written_blocks
  rw [List.map_map, List.pairwise_map]
  have hS : (r.segments.flatMap (fun s =>
      split_segment s (maxC * maxL) maxL maxD)).Pairwise
      (fun x y => x.start_time ≤ y.start_time) := by
    have hflat : r.segments.flatMap
        (fun s => split_segment s (maxC * maxL) maxL maxD) =
        r.segments.flatMap (fun s => (duration_pieces s maxD).flatMap
          (fun p => split_segment_by_chars p (maxC * maxL) maxL)) := by
      unfold List.flatMap
      exact congrArg List.flatten
        (List.map_congr_left (fun s _ => split_segment_eq_pieces s _ _ _))
    rw [hflat, List.pairwise_flatMap]
    constructor
    · intro s hs
      rw [List.pairwise_flatMap]
      constructor
      · intro p hp
        exact (split_by_chars_pairwise_lt p _ _).imp (fun h => le_of_lt h)
      · refine List.Pairwise.imp_of_mem ?_
          (duration_pieces_pairwise_sep s maxD)
        intro p q hp hq hpq x hx y hy
        have hb1 : x.start_time ≤ p.end_time := (hin s hs p hp).2 x hx
        have hb2 : q.start_time ≤ y.start_time :=
          split_by_chars_start_lb q _ _ y hy
        linarith
    · refine List.Pairwise.imp_of_mem ?_ hord
      intro s t hs ht hst x hx y hy
      rcases List.mem_flatMap.mp hx with ⟨p, hp, hx⟩
      rcases List.mem_flatMap.mp hy with ⟨q, hq, hy⟩
      have h1 : x.start_time ≤ p.end_time := (hin s hs p hp).2 x hx
      have h2 : p.end_time ≤ s.end_time := (hin s hs p hp).1
      have h3 : t.start_time ≤ q.start_time :=
        duration_pieces_start_lb t maxD q hq
      have h4 : q.start_time ≤ y.start_time :=
        split_by_chars_start_lb q _ _ y hy
      linarith
  refine hS.imp ?_
  intro x y hxy
  simpa [write_block_start] using hxy

/-- Witness for C9 at a two-segment ordered input. -/
theorem C9_witness :
    ((written_blocks ⟨none, [⟨0, 1, hiChars⟩, ⟨2, 3, hiChars⟩]⟩ 80 2 7).map
        Block.start_time).Pairwise (· ≤ ·) :=
  C9_amended_monotonicity ⟨none, [⟨0, 1, hiChars⟩, ⟨2, 3, hiChars⟩]⟩ 80 2 7
    (by decide) (by decide)

end SyncSub
